import Mathlib

/-
Verification development for the order-statistics engine in
Infovis/vtkOrderStatistics.cxx.

The embedding below translates the four components of the engine
(histogram-consuming quantile deriver, goodness-of-fit tester, quantizer,
and the model-block gate) into executable Lean definitions.

Modelling conventions:
* Machine doubles are modelled by exact rationals; the C library functions
  round (half away from zero), ceil and floor become cRound, Int.ceil and
  Int.floor on the rationals.
* vtkIdType is modelled by Int (counts read from a histogram table can be
  arbitrary integers, e.g. the -1 sentinel, when the table is user supplied).
* C++ std::string with its byte-wise lexicographic operator< is modelled by
  List Nat (the byte sequence) with the lexicographic order on lists.
* Reads past the end of the cdf array (new vtkIdType[nRowHist]) return
  unspecified memory; the model takes that memory as an explicit parameter
  gamma so that behaviour depending on it is visible in the theorems.
-/

/-- QuantileDefinitionType from vtkOrderStatistics.h: InverseCDF is the
spec name NearestRank, InverseCDFAveragedSteps the spec name AveragedSteps. -/
inductive QuantileDefinitionType where
  | inverseCDF : QuantileDefinitionType
  | inverseCDFAveragedSteps : QuantileDefinitionType
deriving DecidableEq

/-- The C library function round: rounding half away from zero. -/
def cRound (x : ℚ) : ℤ :=
  if x < 0 then -Int.floor (-x + 1/2) else Int.floor (x + 1/2)

/-- Derive, lines 431-439: the first quantile index. The branch on
InverseCDFAveragedSteps takes round( np ), the other branch ceil( np ). -/
def qIdx1Of (qd : QuantileDefinitionType) (np : ℚ) : ℤ :=
  match qd with
  | .inverseCDFAveragedSteps => cRound np
  | .inverseCDF => Int.ceil np

/-- Derive, lines 365-377: the CDF array. Entry r (1-based, r skips the
reserved cardinality row 0) holds the running sum of the first r real
histogram counts. The array has nRowHist = counts.length + 1 cells, so a
read at any other index returns unspecified memory gamma r. -/
def cdfRead (gamma : ℕ → ℤ) (counts : List ℤ) (r : ℕ) : ℤ :=
  if 1 ≤ r ∧ r ≤ counts.length then ((counts.take r).sum) else gamma r

/-- Derive, lines 442-457 (and 471-486): the rank-advancing while loop.
Checks qIdx > cdf[rank]; on failure returns rank; otherwise increments rank
and reports an error once rank exceeds nRowHist. The fuel argument m is the
number of increments still allowed before the rank > nRowHist test fires,
namely nRowHist - rank at entry; the recursion is on that fuel. -/
def advanceGo (cdfR : ℕ → ℤ) (qIdx : ℤ) : ℕ → ℕ → Except Unit ℕ
  | rank, 0 => if qIdx ≤ cdfR rank then .ok rank else .error ()
  | rank, m + 1 => if qIdx ≤ cdfR rank then .ok rank else advanceGo cdfR qIdx (rank + 1) m

/-- Derive: one run of the rank-advancing loop starting at rank, with the
histogram bound nRowHist. -/
def advanceRank (cdfR : ℕ → ℤ) (nRowHist : ℕ) (qIdx : ℤ) (rank : ℕ) : Except Unit ℕ :=
  advanceGo cdfR qIdx rank (nRowHist - rank)

/-- Derive, lines 422-495: the loop over the interior quantiles k. For each
k it computes np = k * (n / NumberOfIntervals), advances the shared rank
cursor to the first quantile index, and under InverseCDFAveragedSteps
possibly advances again to qIdx2 = floor( np + 1 ); it collects the pairs
(qIdxPair.first, qIdxPair.second). The cursor is never reset between
iterations. -/
def interiorLoop (cdfR : ℕ → ℤ) (nRowHist : ℕ) (n : ℤ) (numberOfIntervals : ℕ)
    (qd : QuantileDefinitionType) : List ℕ → ℕ → Except Unit (List (ℕ × ℕ))
  | [], _ => .ok []
  | k :: ks, rank =>
    let np : ℚ := (k : ℚ) * ((n : ℚ) / (numberOfIntervals : ℚ))
    match advanceRank cdfR nRowHist (qIdx1Of qd np) rank with
    | .error e => .error e
    | .ok r1 =>
      let second : Except Unit ℕ :=
        match qd with
        | .inverseCDFAveragedSteps =>
          let qIdx2 : ℤ := Int.floor (np + 1)
          if qIdx1Of qd np ≠ qIdx2 then advanceRank cdfR nRowHist qIdx2 r1 else .ok r1
        | .inverseCDF => .ok r1
      match second with
      | .error e => .error e
      | .ok r2 =>
        match interiorLoop cdfR nRowHist n numberOfIntervals qd ks r2 with
        | .error e => .error e
        | .ok ps => .ok ((r1, r2) :: ps)

/-- Derive, lines 413-500: the full list of quantile index pairs: the fixed
first pair (1,1), the interior pairs for k = 1 .. N-1 starting from rank 1,
and the fixed last pair (nRowHist - 1, nRowHist - 1). -/
def quantileIndices (cdfR : ℕ → ℤ) (nRowHist : ℕ) (n : ℤ) (numberOfIntervals : ℕ)
    (qd : QuantileDefinitionType) : Except Unit (List (ℕ × ℕ)) :=
  match interiorLoop cdfR nRowHist n numberOfIntervals qd
      (List.range' 1 (numberOfIntervals - 1)) 1 with
  | .error e => .error e
  | .ok interior => .ok ((1, 1) :: interior ++ [(nRowHist - 1, nRowHist - 1)])

/-- Reading the Value column of the histogram table at row r. Row 0 is the
reserved cardinality row (value NaN for a numeric column, modelled by 0
here; the theorems below never read it), the real entries are rows 1 .. . -/
def histValue (vals : List ℚ) (r : ℕ) : ℚ :=
  ((0 : ℚ) :: vals).getD r 0

/-- Derive, lines 506-548 (numeric columns): the quantile values. Under
InverseCDFAveragedSteps the value is the midpoint of the values at the two
ranks of the pair; otherwise it is the value at the first rank. -/
def breakpointsOf (qd : QuantileDefinitionType) (vals : List ℚ)
    (pairs : List (ℕ × ℕ)) : List ℚ :=
  match qd with
  | .inverseCDFAveragedSteps =>
    pairs.map (fun p => (histValue vals p.1 + histValue vals p.2) / 2)
  | .inverseCDF => pairs.map (fun p => histValue vals p.1)

/-- Derive, one numeric histogram block: from the list of real-entry values
and counts, compute n and the CDF, then the quantile index pairs, then the
N + 1 breakpoint values. An error from the rank advance aborts (the C code
returns from Derive). -/
def deriveColumn (gamma : ℕ → ℤ) (qd : QuantileDefinitionType) (numberOfIntervals : ℕ)
    (vals : List ℚ) (counts : List ℤ) : Except Unit (List ℚ) :=
  match quantileIndices (cdfRead gamma counts) (counts.length + 1) counts.sum
      numberOfIntervals qd with
  | .error e => .error e
  | .ok pairs => .ok (breakpointsOf qd vals pairs)

/-- One histogram block of the model multiblock (the Value and Cardinality
columns of the real entries, rows 1 .. of the histogram table). -/
structure HistBlock where
  vals : List ℚ
  counts : List ℤ
deriving DecidableEq

/-- Derive, lines 349-617: the loop over the histogram blocks. The C code
returns from the whole function on a rank-advance error, so no quantile
column of any block and no appended Quantiles block survives an error in
any one block; on success the Quantiles table holds one breakpoint column
per block. -/
def deriveModel (gamma : ℕ → ℤ) (qd : QuantileDefinitionType) (numberOfIntervals : ℕ) :
    List HistBlock → Except Unit (List (List ℚ))
  | [] => .ok []
  | b :: bs =>
    match deriveColumn gamma qd numberOfIntervals b.vals b.counts with
    | .error e => .error e
    | .ok bps =>
      match deriveModel gamma qd numberOfIntervals bs with
      | .error e => .error e
      | .ok rest => .ok (bps :: rest)

/-- Bookkeeping predicate for the quantile index pairs: every pair (a, b)
satisfies lo at most a, a at most b, b at most hi, and the chain continues
from b, so the ranks are non-decreasing along the list and stay within
[lo, hi]. -/
def pairsBetween (lo hi : ℕ) : List (ℕ × ℕ) → Prop
  | [] => True
  | p :: ps => lo ≤ p.1 ∧ p.1 ≤ p.2 ∧ p.2 ≤ hi ∧ pairsBetween p.2 hi ps

/-- The label of one row of the Quantile column of the quantiles table.
The generic label is the string <i*dq>-quantile; its numeric payload i * dq
(with dq = 1 / NumberOfIntervals) is kept as an exact rational. -/
inductive QLabel where
  | minimum : QLabel
  | firstQuartile : QLabel
  | median : QLabel
  | thirdQuartile : QLabel
  | maximum : QLabel
  | generic : ℚ → QLabel
deriving DecidableEq

/-- Derive, lines 311-347: the label of the breakpoint at position i of N,
via div( i << 2, N ): a nonzero remainder gives the generic label, else the
quotient selects one of the five special names (the default switch branch
falls back to the generic label). -/
def quantileLabel (numberOfIntervals : ℕ) (i : ℕ) : QLabel :=
  let q := (4 * i) / numberOfIntervals
  let r := (4 * i) % numberOfIntervals
  if r ≠ 0 then .generic ((i : ℚ) / (numberOfIntervals : ℚ))
  else if q = 0 then .minimum
  else if q = 1 then .firstQuartile
  else if q = 2 then .median
  else if q = 3 then .thirdQuartile
  else if q = 4 then .maximum
  else .generic ((i : ℚ) / (numberOfIntervals : ℚ))

/-- Derive, lines 311-347: the N + 1 labels, for i = 0 .. N. -/
def quantileLabels (numberOfIntervals : ℕ) : List QLabel :=
  (List.range (numberOfIntervals + 1)).map (quantileLabel numberOfIntervals)

/-- The quantizer functors, lines 810-832 / 851-874 / 892-914: given the
stored quantile breakpoints and one observation, return 0 when the
observation is below breakpoint 0, else start at q = 1 and advance q while
q < n and the observation exceeds breakpoint q, returning the final q.
All three functors run the same algorithm over their value type; the model
is generic over a linear order. -/
def quantize {α : Type} [LinearOrder α] [Inhabited α] (quantiles : List α) (x : α) : ℕ :=
  if x < quantiles.headD default then 0
  else 1 + ((quantiles.drop 1).takeWhile (fun v => decide (v < x))).length

/-- Test, lines 758-761: the inner while loop advancing currentQ while
currentQ < nQuant and the observation is at least quantiles[currentQ]. -/
def advanceQ {α : Type} [LinearOrder α] (quantiles : List α) (v : α) (currentQ : ℕ) : ℕ :=
  currentQ + ((quantiles.drop currentQ).takeWhile (fun q => decide (q ≤ v))).length

/-- Test, lines 749-773: walking the merged empirical CDF in ascending key
order. For each key: if it is at least quantiles[0], advance currentQ and
set mcdf = currentQ * (1 / nQuant) with nQuant the number of rows of the
quantiles table; otherwise mcdf keeps its previous value (0 initially).
The result is the model CDF value used at each empirical point. -/
def mcdfSeq {α : Type} [LinearOrder α] [Inhabited α] (quantiles : List α) :
    ℕ → ℚ → List α → List ℚ
  | _, _, [] => []
  | currentQ, mcdf, v :: rest =>
    if quantiles.headD default ≤ v then
      let c := advanceQ quantiles v currentQ
      ((c : ℚ) / (quantiles.length : ℚ)) ::
        mcdfSeq quantiles c ((c : ℚ) / (quantiles.length : ℚ)) rest
    else
      mcdf :: mcdfSeq quantiles currentQ mcdf rest

/-- The key set of the std::map of Test, lines 697-704: sorted insertion of
one key into the strictly sorted list of keys already present. -/
def insertKey {α : Type} [LinearOrder α] (s : α) : List α → List α
  | [] => [s]
  | t :: ts => if s < t then s :: t :: ts else if s = t then t :: ts else t :: insertKey s ts

/-- The strictly sorted list of distinct keys of the empirical CDF map
built from the observation rows. -/
def mapKeys {α : Type} [LinearOrder α] (rows : List α) : List α :=
  rows.foldr insertKey []

/-- Test, lines 706-712: the prefix sum turning the per-key relative
frequencies into the empirical CDF, walking the keys in ascending order.
Each key contributes count * (1 / nRowData), the sum of its += inv_card
increments from lines 699-704. -/
def ecdfGo {α : Type} [LinearOrder α] (rows : List α) (sum : ℚ) :
    List α → List (α × ℚ)
  | [] => []
  | k :: ks =>
    let sum1 := sum + (rows.countP (fun r => decide (r = k)) : ℚ) / (rows.length : ℚ)
    (k, sum1) :: ecdfGo rows sum1 ks

/-- Test, lines 696-712: the empirical CDF of a column, a map from each
distinct observation key to its cumulative relative frequency, in the
ascending key order of the std::map. The keys are the ToString forms of
the observations, compared as strings. -/
def cdfEmpirical {α : Type} [LinearOrder α] (rows : List α) : List (α × ℚ) :=
  ecdfGo rows 0 (mapKeys rows)

/-- The byte string of the decimal form of a natural number, digit by
digit; models vtkVariant::ToString for a nonnegative integer-valued
observation (48 is the code of the digit 0). -/
def natStrAux : ℕ → ℕ → List ℕ
  | 0, _ => []
  | fuel + 1, n => if n < 10 then [48 + n] else natStrAux fuel (n / 10) ++ [48 + n % 10]

/-- The decimal byte string of a natural number. -/
def natStr (n : ℕ) : List ℕ :=
  natStrAux (n + 1) n

/-- Written from the words of the spec, for comparison with cdfEmpirical
(not from the source): an empirical CDF whose per-value relative
frequencies are prefix-summed in ascending NUMERIC order of the observed
values of a numeric column. -/
def ecdfNumericClaimed (rows : List ℕ) : List (ℕ × ℚ) :=
  (mapKeys rows).map
    (fun v => (v, (rows.countP (fun r => decide (r ≤ v)) : ℚ) / (rows.length : ℚ)))

/-- One block of the model multiblock data set: its metadata NAME and, when
the block is a vtkTable, the table as a list of named columns (none models
a block that is not a table). -/
structure MBlock where
  name : List ℕ
  table : Option (List (List ℕ × List ℚ))
deriving DecidableEq

/-- The byte string Quantiles, the reserved name of the shared quantile
block appended by Derive (line 613). -/
def quantilesName : List ℕ :=
  [81, 117, 97, 110, 116, 105, 108, 101, 115]

/-- Test, lines 630-641: the quantile table is taken from the LAST block of
the input model, and only when that block is a table whose metadata name is
exactly Quantiles; otherwise Test returns with no output. -/
def testQuantileTab (blocks : List MBlock) : Option (List (List ℕ × List ℚ)) :=
  match blocks.getLast? with
  | none => none
  | some b =>
    match b.table with
    | none => none
    | some t => if b.name = quantilesName then some t else none

/-- SelectAssessFunctor, lines 930-961: the same last-block gate, then the
lookup of the quantile column of the requested variable; none models the
early returns (no functor selected, no assessment produced). -/
def selectAssessFunctor (blocks : List MBlock) (varName : List ℕ) : Option (List ℚ) :=
  match blocks.getLast? with
  | none => none
  | some b =>
    match b.table with
    | none => none
    | some t =>
      if b.name = quantilesName then
        match t.lookup varName with
        | none => none
        | some col => some col
      else none

/-! ### General helper lemmas -/

/-- Evaluation helper for the integer ceiling of a rational. -/
theorem ceilEq (q : ℚ) (z : ℤ) (h1 : (z : ℚ) - 1 < q) (h2 : q ≤ (z : ℚ)) : Int.ceil q = z := by
  rw [Int.ceil_eq_iff]
  exact ⟨h1, h2⟩

/-- Evaluation helper for the integer floor of a rational. -/
theorem floorEq (q : ℚ) (z : ℤ) (h1 : (z : ℚ) ≤ q) (h2 : q < (z : ℚ) + 1) : Int.floor q = z := by
  rw [Int.floor_eq_iff]
  exact ⟨h1, h2⟩

/-- A pointwise stronger predicate keeps a takeWhile prefix at most as long. -/
theorem takeWhile_length_mono_pred {α : Type} (p q : α → Bool)
    (hpq : ∀ a, p a = true → q a = true) :
    ∀ l : List α, (l.takeWhile p).length ≤ (l.takeWhile q).length := by
  intro l
  induction l with
  | nil => simp
  | cons a l ih =>
    by_cases hp : p a
    · simp [List.takeWhile_cons, hp, hpq a hp]
      exact ih
    · simp [List.takeWhile_cons, hp]

/-- Every position inside the takeWhile prefix satisfies the predicate. -/
theorem takeWhile_getD_of_lt {α : Type} (p : α → Bool) (d : α) :
    ∀ (l : List α) (i : ℕ), i < (l.takeWhile p).length → p (l.getD i d) = true := by
  intro l
  induction l with
  | nil => simp
  | cons a l ih =>
    intro i hi
    by_cases hp : p a
    · cases i with
      | zero => simpa [List.getD]
      | succ j =>
        rw [List.takeWhile_cons, if_pos hp] at hi
        simp only [List.length_cons, Nat.succ_lt_succ_iff] at hi
        simpa [List.getD] using ih j hi
    · rw [List.takeWhile_cons, if_neg hp] at hi
      simp at hi

/-- The position right after the takeWhile prefix fails the predicate. -/
theorem takeWhile_getD_stop {α : Type} (p : α → Bool) (d : α) :
    ∀ l : List α, (l.takeWhile p).length < l.length →
      p (l.getD (l.takeWhile p).length d) = false := by
  intro l
  induction l with
  | nil => simp
  | cons a l ih =>
    intro hlt
    by_cases hp : p a
    · rw [List.takeWhile_cons, if_pos hp] at hlt ⊢
      simp only [List.length_cons, Nat.succ_lt_succ_iff] at hlt
      simpa [List.getD] using ih hlt
    · rw [List.takeWhile_cons, if_neg hp]
      simpa [List.getD] using Bool.of_not_eq_true hp

/-- Characterisation in the other direction: a position count whose entries
all satisfy the predicate and whose next entry fails it is the takeWhile
length. -/
theorem takeWhile_length_eq_of {α : Type} (p : α → Bool) (d : α) :
    ∀ (l : List α) (t : ℕ), t ≤ l.length →
      (∀ i, i < t → p (l.getD i d) = true) →
      (t < l.length → p (l.getD t d) = false) →
      (l.takeWhile p).length = t := by
  intro l
  induction l with
  | nil =>
    intro t ht _ _
    simp only [List.length_nil, Nat.le_zero] at ht
    simp [ht]
  | cons a l ih =>
    intro t ht hall hstop
    cases t with
    | zero =>
      have hfa : p a = false := by simpa [List.getD] using hstop (by simp)
      simp [List.takeWhile_cons, hfa]
    | succ s =>
      have hpa : p a = true := by simpa [List.getD] using hall 0 (Nat.succ_pos s)
      rw [List.takeWhile_cons, if_pos hpa]
      simp only [List.length_cons]
      have hs : (l.takeWhile p).length = s := by
        refine ih s (by simpa using ht) ?_ ?_
        · intro i hi
          simpa [List.getD] using hall (i + 1) (Nat.succ_lt_succ hi)
        · intro hsl
          simpa [List.getD] using hstop (Nat.succ_lt_succ hsl)
      omega

/-- Reading inside a dropped list is reading at the shifted position. -/
theorem getD_drop {α : Type} (d : α) (l : List α) (c i : ℕ) :
    (l.drop c).getD i d = l.getD (c + i) d := by
  rw [List.getD_eq_getElem?_getD, List.getD_eq_getElem?_getD, List.getElem?_drop]

/-- Entries of a non-decreasingly sorted list are monotone in the position,
read through getD at in-range positions. -/
theorem sorted_getD_le {α : Type} [Preorder α] (d : α) (l : List α)
    (hs : l.Sorted (· ≤ ·)) (i j : ℕ) (hij : i ≤ j) (hj : j < l.length) :
    l.getD i d ≤ l.getD j d := by
  have hi : i < l.length := lt_of_le_of_lt hij hj
  rw [List.getD_eq_getElem?_getD, List.getElem?_eq_getElem hi, Option.getD_some,
    List.getD_eq_getElem?_getD, List.getElem?_eq_getElem hj, Option.getD_some]
  rcases Nat.lt_or_ge i j with h | h
  · exact (List.pairwise_iff_getElem.mp hs) i j hi hj h
  · have heq : i = j := Nat.le_antisymm hij h
    subst heq
    exact le_refl _

/-- Entries of a strictly sorted list are strictly monotone in the
position, read through getD at in-range positions. -/
theorem sorted_getD_lt {α : Type} [Preorder α] (d : α) (l : List α)
    (hs : l.Sorted (· < ·)) (i j : ℕ) (hij : i < j) (hj : j < l.length) :
    l.getD i d < l.getD j d := by
  have hi : i < l.length := lt_trans hij hj
  rw [List.getD_eq_getElem?_getD, List.getElem?_eq_getElem hi, Option.getD_some,
    List.getD_eq_getElem?_getD, List.getElem?_eq_getElem hj, Option.getD_some]
  exact (List.pairwise_iff_getElem.mp hs) i j hi hj hij

/-! ### Claim C2: assignment of round and ceil to the two quantile definitions -/

/-- C2 counterexample. At np = 5/4 (e.g. n = 5, N = 4, k = 1) the code
computes qIdx1 = ceil( np ) = 2 under InverseCDF (the spec name
NearestRank) and qIdx1 = round( np ) = 1 under InverseCDFAveragedSteps
(the spec name AveragedSteps); the claim assigns round to NearestRank and
ceil to AveragedSteps, which is the opposite. -/
theorem derive_qIdx1_swap_cex :
    qIdx1Of QuantileDefinitionType.inverseCDF (5/4) = 2
    ∧ cRound (5/4) = 1
    ∧ qIdx1Of QuantileDefinitionType.inverseCDFAveragedSteps (5/4) = 1
    ∧ Int.ceil ((5 : ℚ)/4) = 2
    ∧ (2 : ℤ) ≠ 1 := by
  have hc : Int.ceil ((5 : ℚ)/4) = 2 := ceilEq _ _ (by norm_num) (by norm_num)
  have hf : Int.floor ((5 : ℚ)/4 + 1/2) = 1 := floorEq _ _ (by norm_num) (by norm_num)
  refine ⟨hc, ?_, ?_, hc, by norm_num⟩
  · rw [cRound, if_neg (by norm_num)]
    exact hf
  · rw [qIdx1Of, cRound, if_neg (by norm_num)]
    exact hf

/-- C2 amended: in Derive, the target rank index qIdx1 for an interior
quantile with target np = k * n / N is ceil( np ) under the NearestRank
definition (InverseCDF) and round( np ) under the AveragedSteps definition
(InverseCDFAveragedSteps) - the converse of the claimed assignment. The two
concrete runs realise the spec scenario histogram of [1,2,2,3,4,5,5,5,6,7]
with n = 10 and N = 4 under both definitions. -/
theorem derive_qIdx1_assignment :
    (∀ np : ℚ, qIdx1Of QuantileDefinitionType.inverseCDF np = Int.ceil np
      ∧ qIdx1Of QuantileDefinitionType.inverseCDFAveragedSteps np = cRound np)
    ∧ deriveColumn (fun _ => 0) QuantileDefinitionType.inverseCDF 4
        [1, 2, 3, 4, 5, 6, 7] [1, 2, 1, 1, 3, 1, 1] = Except.ok [1, 2, 4, 5, 7]
    ∧ deriveColumn (fun _ => 0) QuantileDefinitionType.inverseCDFAveragedSteps 4
        [1, 2, 3, 4, 5, 6, 7] [1, 2, 1, 1, 3, 1, 1] = Except.ok [1, 2, 9/2, 5, 7] := by
  refine ⟨fun np => ⟨rfl, rfl⟩, ?_, ?_⟩
  · have h1 : Int.ceil ((5 : ℚ) / 2) = 3 := ceilEq _ _ (by norm_num) (by norm_num)
    have h3 : Int.ceil ((15 : ℚ) / 2) = 8 := ceilEq _ _ (by norm_num) (by norm_num)
    norm_num [deriveColumn, quantileIndices, interiorLoop, advanceRank, advanceGo, cdfRead,
      qIdx1Of, breakpointsOf, histValue, List.range', h1, h3]
    rfl
  · have h1 : Int.floor ((5 : ℚ) / 2 + 1 / 2) = 3 := floorEq _ _ (by norm_num) (by norm_num)
    have h2 : Int.floor ((5 : ℚ) / 2 + 1) = 3 := floorEq _ _ (by norm_num) (by norm_num)
    have h3 : Int.floor ((15 : ℚ) / 2 + 1 / 2) = 8 := floorEq _ _ (by norm_num) (by norm_num)
    have h4 : Int.floor ((15 : ℚ) / 2 + 1) = 8 := floorEq _ _ (by norm_num) (by norm_num)
    norm_num [deriveColumn, quantileIndices, interiorLoop, advanceRank, advanceGo, cdfRead,
      qIdx1Of, cRound, breakpointsOf, histValue, List.range', h1, h2, h3, h4]
    rfl

/-! ### Claim C6: Derive on a histogram with no real entries -/

/-- C6: on a histogram table holding only the reserved cardinality row,
Derive is not a no-op: the first interior quantile already evaluates the
rank-advance condition against cdf[1], one cell past the end of the
one-cell cdf array. The outcome depends on the unspecified memory gamma
there: with gamma 1 = -1 the whole derivation aborts with the consistency
error, with gamma 1 = 0 the loop stops at once and garbage breakpoints are
produced from nonexistent histogram rows (the code also computes
inv_n = 1 / 0 at line 403 before this point). -/
theorem derive_empty_histogram_oob :
    deriveColumn (fun _ => -1) QuantileDefinitionType.inverseCDF 4 [] [] = Except.error ()
    ∧ deriveColumn (fun _ => 0) QuantileDefinitionType.inverseCDF 4 [] []
        = Except.ok [0, 0, 0, 0, 0] := by
  constructor
  · norm_num [deriveColumn, quantileIndices, interiorLoop, advanceRank, advanceGo, cdfRead,
      qIdx1Of, List.range']
  · norm_num [deriveColumn, quantileIndices, interiorLoop, advanceRank, advanceGo, cdfRead,
      qIdx1Of, breakpointsOf, histValue, List.range']

/-! ### Claim C5: a rank-advance error aborts the whole Derive -/

/-- C5 counterexample. The first block is a corrupt histogram (count -1,
possible because the input meta table may be user supplied, cf. the NB
comment at lines 200-204) whose rank advance runs past the histogram bound
with unspecified memory gamma = -5 and reports the consistency error; the
second block is a well-formed histogram that alone derives fine. Yet the
whole Derive aborts: no block is derived and no Quantiles block is
appended, so the other column is NOT unaffected as claimed. -/
theorem derive_abort_cex :
    deriveModel (fun _ => -5) QuantileDefinitionType.inverseCDF 2
      [⟨[7], [-1]⟩, ⟨[1, 2], [1, 1]⟩] = Except.error ()
    ∧ deriveColumn (fun _ => -5) QuantileDefinitionType.inverseCDF 2 [1, 2] [1, 1]
        = Except.ok [1, 1, 2] := by
  have hc : Int.ceil (-((1 : ℚ)/2)) = 0 := ceilEq _ _ (by norm_num) (by norm_num)
  constructor
  · norm_num [deriveModel, deriveColumn, quantileIndices, interiorLoop, advanceRank,
      advanceGo, cdfRead, qIdx1Of, List.range', hc]
  · norm_num [deriveColumn, quantileIndices, interiorLoop, advanceRank, advanceGo, cdfRead,
      qIdx1Of, breakpointsOf, histValue, List.range']
    rfl

/-- C5 amended: when the rank cursor runs past the histogram bound in any
one block, the error aborts the ENTIRE derivation (the C code returns from
Derive): no quantile column of any block of the same model is produced and
the shared Quantiles block is not appended. -/
theorem derive_error_aborts_all (gamma : ℕ → ℤ) (qd : QuantileDefinitionType) (N : ℕ)
    (blocks : List HistBlock) (b : HistBlock) (hb : b ∈ blocks)
    (he : deriveColumn gamma qd N b.vals b.counts = Except.error ()) :
    deriveModel gamma qd N blocks = Except.error () := by
  induction blocks with
  | nil => cases hb
  | cons hd tl ih =>
    rcases List.mem_cons.mp hb with h | h
    · subst h
      simp [deriveModel, he]
    · have htl := ih h
      cases hcol : deriveColumn gamma qd N hd.vals hd.counts with
      | error e =>
        cases e
        simp [deriveModel, hcol]
      | ok bps =>
        simp [deriveModel, hcol, htl]

/-- C5 witness: the amended theorem applied to the concrete two-block model
of the counterexample. -/
theorem derive_error_aborts_all_wit :
    deriveModel (fun _ => -5) QuantileDefinitionType.inverseCDF 2
      [⟨[7], [-1]⟩, ⟨[1, 2], [1, 1]⟩] = Except.error () := by
  have hc : Int.ceil (-((1 : ℚ)/2)) = 0 := ceilEq _ _ (by norm_num) (by norm_num)
  refine derive_error_aborts_all _ _ _ _ ⟨[7], [-1]⟩ (by simp) ?_
  norm_num [deriveColumn, quantileIndices, interiorLoop, advanceRank, advanceGo, cdfRead,
    qIdx1Of, List.range', hc]

/-! ### Claim C10: the quantile model gate of Test and SelectAssessFunctor -/

/-- C10: both Test (lines 630-641) and SelectAssessFunctor (lines 930-941)
read the quantile table from the LAST block only: prepending any blocks
leaves the result unchanged, a last block that is a table named Quantiles
is accepted, a last block that is not a table or carries another name is
rejected (result none, no output), an empty model is rejected, and a
Quantiles table at an earlier position is ignored. -/
theorem last_block_quantiles_gate :
    (∀ (bs : List MBlock) (b : MBlock) (v : List ℕ),
      testQuantileTab (bs ++ [b]) = testQuantileTab [b]
      ∧ selectAssessFunctor (bs ++ [b]) v = selectAssessFunctor [b] v)
    ∧ (∀ nm t, testQuantileTab [⟨nm, some t⟩]
        = if nm = quantilesName then some t else none)
    ∧ (∀ nm, testQuantileTab [⟨nm, none⟩] = none)
    ∧ (∀ v, testQuantileTab [] = none ∧ selectAssessFunctor [] v = none)
    ∧ (∀ v nm, selectAssessFunctor [⟨nm, none⟩] v = none)
    ∧ testQuantileTab
        [⟨quantilesName, some [([120], [1])]⟩, ⟨[79], some []⟩] = none
    ∧ testQuantileTab
        [⟨quantilesName, some [([120], [1])]⟩, ⟨[79], none⟩] = none
    ∧ selectAssessFunctor
        [⟨quantilesName, some [([120], [1])]⟩, ⟨[79], some []⟩] [120] = none := by
  refine ⟨?_, ?_, ?_, ?_, ?_, ?_, ?_, ?_⟩
  · intro bs b v
    constructor
    · simp [testQuantileTab, List.getLast?_concat]
    · simp [selectAssessFunctor, List.getLast?_concat]
  · intro nm t
    simp [testQuantileTab]
  · intro nm
    simp [testQuantileTab]
  · intro v
    exact ⟨rfl, rfl⟩
  · intro v nm
    simp [selectAssessFunctor]
  · simp [testQuantileTab, quantilesName]
  · simp [testQuantileTab]
  · simp [selectAssessFunctor, quantilesName]


/-! ### Claim C8: quantile labels -/

/-- Any takeWhile prefix is at most as long as the list. -/
theorem takeWhile_len_le {α : Type} (p : α → Bool) :
    ∀ l : List α, (l.takeWhile p).length ≤ l.length := by
  intro l
  induction l with
  | nil => simp
  | cons a l ih =>
    by_cases hp : p a
    · simp only [List.takeWhile_cons, if_pos hp, List.length_cons]
      omega
    · simp [List.takeWhile_cons, hp]

/-- C8: the label at position k of N is one of the five special names
exactly when 4k divides by N without remainder with the respective quotient
0,1,2,3,4, and is the generic k/N quantile label exactly otherwise (for
k at most N the quotient never exceeds 4, so the listed cases are
exhaustive); concretely the labels for N = 4 and N = 3 are as claimed. -/
theorem quantile_labels_spec (N k : ℕ) :
    ((quantileLabel N k = QLabel.minimum ↔ (4*k) % N = 0 ∧ (4*k) / N = 0)
    ∧ (quantileLabel N k = QLabel.firstQuartile ↔ (4*k) % N = 0 ∧ (4*k) / N = 1)
    ∧ (quantileLabel N k = QLabel.median ↔ (4*k) % N = 0 ∧ (4*k) / N = 2)
    ∧ (quantileLabel N k = QLabel.thirdQuartile ↔ (4*k) % N = 0 ∧ (4*k) / N = 3)
    ∧ (quantileLabel N k = QLabel.maximum ↔ (4*k) % N = 0 ∧ (4*k) / N = 4)
    ∧ (quantileLabel N k = QLabel.generic ((k : ℚ) / (N : ℚ))
        ↔ ((4*k) % N ≠ 0 ∨ 4 < (4*k) / N)))
    ∧ quantileLabels 4 = [QLabel.minimum, QLabel.firstQuartile, QLabel.median,
        QLabel.thirdQuartile, QLabel.maximum]
    ∧ quantileLabels 3 = [QLabel.minimum, QLabel.generic (1/3), QLabel.generic (2/3),
        QLabel.maximum] := by
  refine ⟨?_, ?_, ?_⟩
  · by_cases hrem : (4*k) % N = 0
    · rcases Nat.lt_or_ge ((4*k) / N) 5 with hq | hq
      · have h5 : ∀ m : ℕ, m < 5 → m = 0 ∨ m = 1 ∨ m = 2 ∨ m = 3 ∨ m = 4 := by omega
        rcases h5 _ hq with h | h | h | h | h <;> simp [quantileLabel, hrem, h]
      · have hne : ∀ m : ℕ, m < 5 → ¬ (4*k) / N = m := by
          intro m hm hc
          rw [hc] at hq
          omega
        have hgt : 4 < (4*k) / N := lt_of_lt_of_le (by norm_num) hq
        simp [quantileLabel, hrem, hne 0 (by norm_num), hne 1 (by norm_num),
          hne 2 (by norm_num), hne 3 (by norm_num), hne 4 (by norm_num), hgt]
    · simp [quantileLabel, hrem]
  · norm_num [quantileLabels, quantileLabel, List.range_succ]
  · norm_num [quantileLabels, quantileLabel, List.range_succ]

/-! ### Claim C3: the quantizer characterisation -/

/-- C3 counterexample. With the two breakpoints [1, 2] (N = 1), the
observation 3 above the maximum breakpoint yields bucket 2 = N + 1,
outside the claimed range [0, N]; and the observation 1 equal to the
minimum breakpoint yields bucket 1, not the smallest index 0 with
breakpoint at least the observation. -/
theorem quantize_range_cex :
    quantize ([1, 2] : List ℚ) 3 = 2
    ∧ ¬ quantize ([1, 2] : List ℚ) 3 ≤ 1
    ∧ quantize ([1, 2] : List ℚ) 1 = 1 := by
  norm_num [quantize, List.takeWhile]

/-- C3 amended: the quantizer returns 0 exactly for observations strictly
below breakpoint 0; otherwise it returns the smallest index q AT LEAST 1
with breakpoint q at least the observation (so an observation equal to
breakpoint 0 lands in bucket 1), or the number of breakpoints N + 1 when
the observation exceeds every breakpoint; the result always lies in
[0, N + 1], not [0, N]. -/
theorem quantize_characterization {α : Type} [LinearOrder α] [Inhabited α]
    (qs : List α) (x : α) (hq : qs ≠ []) :
    quantize qs x ≤ qs.length
    ∧ (x < qs.headD default → quantize qs x = 0)
    ∧ (¬ x < qs.headD default →
        1 ≤ quantize qs x
        ∧ (∀ j, 1 ≤ j → j < quantize qs x → qs.getD j default < x)
        ∧ (quantize qs x < qs.length → x ≤ qs.getD (quantize qs x) default)) := by
  have hlen : 1 ≤ qs.length := List.length_pos.mpr hq
  refine ⟨?_, ?_, ?_⟩
  · rw [quantize]
    by_cases hx : x < qs.headD default
    · rw [if_pos hx]
      exact Nat.zero_le _
    · rw [if_neg hx]
      have ht := takeWhile_len_le (fun v => decide (v < x)) (qs.drop 1)
      rw [List.length_drop] at ht
      omega
  · intro hx
    rw [quantize, if_pos hx]
  · intro hx
    rw [quantize, if_neg hx]
    refine ⟨by omega, ?_, ?_⟩
    · intro j hj1 hjlt
      have hj : j - 1 < ((qs.drop 1).takeWhile (fun v => decide (v < x))).length := by omega
      have hp := takeWhile_getD_of_lt (fun v => decide (v < x)) default (qs.drop 1) (j - 1) hj
      rw [getD_drop] at hp
      have hidx : 1 + (j - 1) = j := by omega
      rw [hidx] at hp
      exact of_decide_eq_true hp
    · intro hlt
      have htl : ((qs.drop 1).takeWhile (fun v => decide (v < x))).length
          < (qs.drop 1).length := by
        rw [List.length_drop]
        omega
      have hp := takeWhile_getD_stop (fun v => decide (v < x)) default (qs.drop 1) htl
      rw [getD_drop] at hp
      exact le_of_not_lt (of_decide_eq_false hp)

/-- C3 witness: the characterisation applied to the breakpoints [1, 2, 3]
and the observation 2. -/
theorem quantize_characterization_wit :
    (([1, 2, 3] : List ℚ) ≠ []) ∧ quantize ([1, 2, 3] : List ℚ) 2 ≤ 3 := by
  have h := quantize_characterization ([1, 2, 3] : List ℚ) 2 (by simp)
  exact ⟨by simp, by simpa using h.1⟩

/-! ### Claim C4: quantizer round trip and monotonicity -/

/-- C4 counterexample. Quantizing the minimum breakpoint of the
non-decreasing breakpoints [1, 2, 3, 4, 5] (N = 4) returns bucket 1, not
the claimed bucket 0: the scan of the quantizer starts at index 1, so only
observations strictly below the minimum land in bucket 0. -/
theorem quantize_min_breakpoint_cex :
    quantize ([1, 2, 3, 4, 5] : List ℚ) 1 = 1 ∧ (1 : ℕ) ≠ 0 := by
  norm_num [quantize, List.takeWhile]

/-- C4 amended: for sorted breakpoints with at least two entries,
quantizing the minimum breakpoint returns bucket 1 (not 0), quantizing the
maximum breakpoint returns bucket N = length - 1 when the breakpoints are
strictly increasing, and quantizing is monotone: a sorted list of
observations yields a non-decreasing sequence of bucket indices. -/
theorem quantize_roundtrip_monotone {α : Type} [LinearOrder α] [Inhabited α]
    (qs : List α) (h2 : 2 ≤ qs.length) (hs : qs.Sorted (· ≤ ·)) :
    quantize qs (qs.headD default) = 1
    ∧ (qs.Sorted (· < ·) →
        quantize qs (qs.getD (qs.length - 1) default) = qs.length - 1)
    ∧ (∀ x y : α, x ≤ y → quantize qs x ≤ quantize qs y) := by
  refine ⟨?_, ?_, ?_⟩
  · rcases qs with _ | ⟨a, rest⟩
    · simp at h2
    · rcases rest with _ | ⟨b, t⟩
      · simp at h2
      · have hab : a ≤ b := (List.sorted_cons.mp hs).1 b (by simp)
        rw [quantize, List.headD_cons, if_neg (lt_irrefl a)]
        simp [List.takeWhile_cons, decide_eq_false (not_lt.mpr hab)]
  · intro hlt
    have hhead : qs.headD default = qs.getD 0 default := by
      cases qs <;> simp [List.getD]
    have h0x : qs.getD 0 default ≤ qs.getD (qs.length - 1) default :=
      sorted_getD_le default qs hs 0 (qs.length - 1) (by omega) (by omega)
    rw [quantize, hhead, if_neg (not_lt.mpr h0x)]
    have ht : ((qs.drop 1).takeWhile
        (fun v => decide (v < qs.getD (qs.length - 1) default))).length = qs.length - 2 := by
      refine takeWhile_length_eq_of _ default (qs.drop 1) (qs.length - 2) ?_ ?_ ?_
      · rw [List.length_drop]
        omega
      · intro i hi
        rw [getD_drop]
        exact decide_eq_true
          (sorted_getD_lt default qs hlt (1 + i) (qs.length - 1) (by omega) (by omega))
      · intro hstop
        rw [getD_drop]
        have hidx : 1 + (qs.length - 2) = qs.length - 1 := by omega
        rw [hidx]
        exact decide_eq_false (lt_irrefl _)
    rw [ht]
    omega
  · intro x y hxy
    by_cases hy : y < qs.headD default
    · have hxh : x < qs.headD default := lt_of_le_of_lt hxy hy
      rw [quantize, if_pos hxh]
      exact Nat.zero_le _
    · by_cases hxh : x < qs.headD default
      · rw [quantize, if_pos hxh]
        exact Nat.zero_le _
      · rw [quantize, if_neg hxh, quantize, if_neg hy]
        have hm := takeWhile_length_mono_pred (fun v => decide (v < x)) (fun v => decide (v < y))
          (fun a ha => decide_eq_true (lt_of_lt_of_le (of_decide_eq_true ha) hxy)) (qs.drop 1)
        omega

/-- C4 witness: the amended theorem applied to the strictly increasing
breakpoints [1, 2, 3]. -/
theorem quantize_roundtrip_monotone_wit :
    quantize ([1, 2, 3] : List ℚ) (([1, 2, 3] : List ℚ).headD default) = 1 := by
  have h := quantize_roundtrip_monotone ([1, 2, 3] : List ℚ) (by simp)
    (by norm_num [List.sorted_cons])
  exact h.1

/-! ### Claim C1: the model CDF used in the Test walk -/

/-- C1 counterexample. Five quantile rows (a model derived with
NumberOfIntervals N = 4) and one empirical point equal to the minimum
breakpoint: the walk advances currentQ to 1 and uses
mcdf = currentQ * (1 / nQuant) = 1/5, whereas the claim asserts
currentQ / N = 1/4. -/
theorem test_mcdf_denominator_cex :
    mcdfSeq ([1, 2, 3, 4, 5] : List ℕ) 0 0 [1] = [1/5]
    ∧ ((1 : ℚ)/5 ≠ 1/4) := by
  constructor
  · norm_num [mcdfSeq, advanceQ, List.takeWhile]
  · norm_num

/-- Dropping a prefix of the takeWhile prefix leaves the remaining
takeWhile length. -/
theorem takeWhile_drop_length {α : Type} (p : α → Bool) :
    ∀ (l : List α) (c : ℕ), c ≤ (l.takeWhile p).length →
      ((l.drop c).takeWhile p).length = (l.takeWhile p).length - c := by
  intro l
  induction l with
  | nil =>
    intro c hc
    simp at hc
    simp [hc]
  | cons a t ih =>
    intro c hc
    cases c with
    | zero => simp
    | succ c1 =>
      by_cases hp : p a
      · rw [List.takeWhile_cons, if_pos hp] at hc ⊢
        simp only [List.length_cons] at hc
        have := ih c1 (by omega)
        simpa [List.drop_succ_cons] using this
      · rw [List.takeWhile_cons, if_neg hp] at hc
        simp at hc

/-- Test, lines 758-761: when currentQ has not yet passed the last
breakpoint at most v, the advancing loop lands exactly on the number of
breakpoints at most v (the takeWhile prefix length). -/
theorem advanceQ_eq {α : Type} [LinearOrder α] (qs : List α) (v : α) (c : ℕ)
    (hc : c ≤ (qs.takeWhile (fun q => decide (q ≤ v))).length) :
    advanceQ qs v c = (qs.takeWhile (fun q => decide (q ≤ v))).length := by
  rw [advanceQ, takeWhile_drop_length _ _ _ hc]
  omega

/-- For a sorted list the number of entries at most v is the length of the
maximal prefix of entries at most v. -/
theorem sorted_countP_eq_takeWhile {α : Type} [LinearOrder α] (v : α) :
    ∀ qs : List α, qs.Sorted (· ≤ ·) →
      qs.countP (fun q => decide (q ≤ v))
        = (qs.takeWhile (fun q => decide (q ≤ v))).length := by
  intro qs
  induction qs with
  | nil => simp
  | cons a t ih =>
    intro hs
    obtain ⟨hhead, htail⟩ := List.sorted_cons.mp hs
    by_cases ha : a ≤ v
    · rw [List.countP_cons_of_pos _ _ (by simpa using ha),
        List.takeWhile_cons, if_pos (by simpa using ha)]
      simp [ih htail]
    · rw [List.countP_cons_of_neg _ _ (by simpa using ha),
        List.takeWhile_cons, if_neg (by simpa using ha)]
      simp only [List.length_nil]
      refine List.countP_eq_zero.mpr ?_
      intro b hb
      simp only [decide_eq_true_eq]
      intro hbv
      exact ha (le_trans (hhead b hb) hbv)

/-- The generalised walk invariant: if the cursor has not yet passed the
number of breakpoints at most any upcoming point and mcdf is the cursor
over nQuant, the walk emits exactly the count of breakpoints at most each
point over nQuant. -/
theorem mcdfSeq_go_spec {α : Type} [LinearOrder α] [Inhabited α] (qs : List α)
    (hqs : qs ≠ []) :
    ∀ (pts : List α), pts.Sorted (· ≤ ·) →
    ∀ (c : ℕ) (m : ℚ),
      (∀ v ∈ pts, c ≤ (qs.takeWhile (fun q => decide (q ≤ v))).length) →
      m = (c : ℚ) / (qs.length : ℚ) →
      mcdfSeq qs c m pts
        = pts.map (fun v => ((qs.takeWhile (fun q => decide (q ≤ v))).length : ℚ)
            / (qs.length : ℚ)) := by
  intro pts
  induction pts with
  | nil => intro _ c m _ _; rfl
  | cons v rest ih =>
    intro hsort c m hc hm
    obtain ⟨hvrest, hrestsort⟩ := List.sorted_cons.mp hsort
    simp only [mcdfSeq, List.map_cons]
    by_cases hhead : qs.headD default ≤ v
    · rw [if_pos hhead]
      have hadv : advanceQ qs v c = (qs.takeWhile (fun q => decide (q ≤ v))).length :=
        advanceQ_eq qs v c (hc v (by simp))
      rw [hadv]
      congr 1
      refine ih hrestsort _ _ ?_ rfl
      intro w hw
      exact takeWhile_length_mono_pred _ _
        (fun q hq => decide_eq_true (le_trans (of_decide_eq_true hq) (hvrest w hw))) qs
    · rw [if_neg hhead]
      have hT0 : (qs.takeWhile (fun q => decide (q ≤ v))).length = 0 := by
        rcases qs with _ | ⟨q0, qt⟩
        · simp
        · have hq0 : ¬ q0 ≤ v := by simpa using hhead
          rw [List.takeWhile_cons, if_neg (by simpa using hq0)]
          simp
      have hc0 : c = 0 := by
        have := hc v (by simp)
        rw [hT0] at this
        omega
      have hm0 : m = 0 := by
        rw [hm, hc0]
        simp
      congr 1
      · rw [hm0, hT0]
        simp
      · rw [hc0, hm0]
        refine ih hrestsort 0 0 (fun w hw => Nat.zero_le _) (by simp)

/-- C1 amended: in Test, with the quantile breakpoints sorted in the walk
order, the model CDF at each empirical point of the sorted merged CDF is
currentQ * (1 / nQuant), where nQuant is the number of rows of the
quantiles table (N + 1 for a model derived with NumberOfIntervals N, line
669) and currentQ is the number of breakpoints at most that point (0 for
points below the minimum breakpoint) - NOT currentQ / N. -/
theorem test_mcdf_counts_over_nQuant {α : Type} [LinearOrder α] [Inhabited α]
    (qs pts : List α) (hqs : qs ≠ []) (h1 : qs.Sorted (· ≤ ·))
    (h2 : pts.Sorted (· ≤ ·)) :
    mcdfSeq qs 0 0 pts
      = pts.map (fun v => ((qs.countP (fun q => decide (q ≤ v)) : ℚ))
          / (qs.length : ℚ)) := by
  rw [mcdfSeq_go_spec qs hqs pts h2 0 0 (fun v _ => Nat.zero_le _) (by simp)]
  refine List.map_congr_left ?_
  intro v _
  rw [sorted_countP_eq_takeWhile v qs h1]

/-- C1 witness: two breakpoints [1, 2] and the sorted points [1, 3]; the
walk emits 1/2 at the point 1 (one breakpoint at most 1, two rows) and
2/2 = 1 at the point 3. -/
theorem test_mcdf_counts_over_nQuant_wit :
    mcdfSeq ([1, 2] : List ℕ) 0 0 [1, 3] = [1/2, 1] := by
  have h := test_mcdf_counts_over_nQuant ([1, 2] : List ℕ) [1, 3] (by simp)
    (by norm_num [List.sorted_cons]) (by norm_num [List.sorted_cons])
  rw [h]
  norm_num [List.countP_cons, List.countP_nil]

/-! ### Claim C7: the empirical CDF accumulates in string order -/

/-- Insertion equation: the new key sorts strictly below the head. -/
theorem insertKey_cons_lt {α : Type} [LinearOrder α] {s t : α} (ts : List α) (h : s < t) :
    insertKey s (t :: ts) = s :: t :: ts := by
  simp [insertKey, h]

/-- Insertion equation: the new key equals the head (the map keeps the
existing entry). -/
theorem insertKey_cons_eq {α : Type} [LinearOrder α] {s t : α} (ts : List α) (h : s = t) :
    insertKey s (t :: ts) = t :: ts := by
  subst h
  simp [insertKey, lt_irrefl]

/-- Insertion equation: the new key sorts strictly above the head. -/
theorem insertKey_cons_gt {α : Type} [LinearOrder α] {s t : α} (ts : List α) (h : t < s) :
    insertKey s (t :: ts) = t :: insertKey s ts := by
  have h1 : ¬ s < t := lt_asymm h
  have h2 : ¬ s = t := fun he => absurd (he ▸ h) (lt_irrefl t)
  simp [insertKey, h1, h2]

/-- Membership after a sorted-map insertion. -/
theorem mem_insertKey {α : Type} [LinearOrder α] (s a : α) :
    ∀ l : List α, (a ∈ insertKey s l ↔ a = s ∨ a ∈ l) := by
  intro l
  induction l with
  | nil => simp [insertKey]
  | cons t ts ih =>
    rcases lt_trichotomy s t with h | h | h
    · rw [insertKey_cons_lt ts h]
      simp [List.mem_cons]
    · rw [insertKey_cons_eq ts h]
      subst h
      simp [List.mem_cons]
    · rw [insertKey_cons_gt ts h]
      simp only [List.mem_cons, ih]
      tauto

/-- A sorted-map insertion keeps the key list strictly sorted. -/
theorem insertKey_sorted {α : Type} [LinearOrder α] (s : α) :
    ∀ l : List α, l.Sorted (· < ·) → (insertKey s l).Sorted (· < ·) := by
  intro l
  induction l with
  | nil =>
    intro _
    simp [insertKey]
  | cons t ts ih =>
    intro hs
    obtain ⟨hhead, htail⟩ := List.sorted_cons.mp hs
    rcases lt_trichotomy s t with h | h | h
    · rw [insertKey_cons_lt ts h]
      refine List.sorted_cons.mpr ⟨?_, hs⟩
      intro b hb
      rcases List.mem_cons.mp hb with rfl | hb2
      · exact h
      · exact lt_trans h (hhead b hb2)
    · rw [insertKey_cons_eq ts h]
      exact hs
    · rw [insertKey_cons_gt ts h]
      refine List.sorted_cons.mpr ⟨?_, ih htail⟩
      intro b hb
      rcases (mem_insertKey s b ts).mp hb with rfl | hb2
      · exact h
      · exact hhead b hb2

/-- The key list of the empirical CDF map is strictly sorted. -/
theorem mapKeys_sorted {α : Type} [LinearOrder α] (rows : List α) :
    (mapKeys rows).Sorted (· < ·) := by
  induction rows with
  | nil => simp [mapKeys]
  | cons r rs ih => exact insertKey_sorted r _ ih

/-- The key list of the empirical CDF map holds exactly the observed
values. -/
theorem mem_mapKeys {α : Type} [LinearOrder α] (a : α) :
    ∀ rows : List α, a ∈ mapKeys rows ↔ a ∈ rows := by
  intro rows
  induction rows with
  | nil => simp [mapKeys]
  | cons r rs ih =>
    show a ∈ insertKey r (mapKeys rs) ↔ _
    rw [mem_insertKey, ih]
    simp

/-- countP is pointwise on the members. -/
theorem countP_congr_mem {α : Type} (p q : α → Bool) :
    ∀ l : List α, (∀ a ∈ l, p a = q a) → l.countP p = l.countP q := by
  intro l
  induction l with
  | nil => intro _; rfl
  | cons a t ih =>
    intro h
    rw [List.countP_cons, List.countP_cons, h a (by simp),
      ih (fun b hb => h b (by simp [hb]))]

/-- Counting below plus counting equal is counting at most. -/
theorem countP_lt_add_eq_le {α : Type} [LinearOrder α] (k : α) :
    ∀ rows : List α,
      rows.countP (fun r => decide (r < k)) + rows.countP (fun r => decide (r = k))
        = rows.countP (fun r => decide (r ≤ k)) := by
  intro rows
  induction rows with
  | nil => simp
  | cons a t ih =>
    rw [List.countP_cons, List.countP_cons, List.countP_cons]
    rcases lt_trichotomy a k with h | h | h
    · rw [if_pos (decide_eq_true h),
        if_neg (by simp only [decide_eq_true_eq]; exact ne_of_lt h),
        if_pos (decide_eq_true (le_of_lt h))]
      omega
    · subst h
      rw [if_neg (by simp only [decide_eq_true_eq]; exact lt_irrefl a),
        if_pos (decide_eq_true rfl),
        if_pos (decide_eq_true (le_refl a))]
      omega
    · rw [if_neg (by simp only [decide_eq_true_eq]; exact not_lt.mpr (le_of_lt h)),
        if_neg (by simp only [decide_eq_true_eq]; exact ne_of_gt h),
        if_neg (by simp only [decide_eq_true_eq]; exact not_le.mpr h)]
      omega

/-- The prefix-sum pass: starting from the mass strictly below the first
remaining key, every emitted cumulative value is the mass at most its key,
provided the remaining keys are sorted and cover all rows not already
passed. -/
theorem ecdfGo_spec {α : Type} [LinearOrder α] (rows : List α) :
    ∀ (ks : List α) (k0 : α), (k0 :: ks).Sorted (· < ·) →
      (∀ r ∈ rows, r < k0 ∨ r ∈ k0 :: ks) →
      ecdfGo rows ((rows.countP (fun r => decide (r < k0)) : ℚ) / (rows.length : ℚ))
          (k0 :: ks)
        = (k0 :: ks).map (fun k => (k,
            (rows.countP (fun r => decide (r ≤ k)) : ℚ) / (rows.length : ℚ))) := by
  intro ks
  induction ks with
  | nil =>
    intro k0 _ _
    simp only [ecdfGo, List.map_cons, List.map_nil]
    rw [div_add_div_same, ← Nat.cast_add, countP_lt_add_eq_le]
  | cons k1 ks ih =>
    intro k0 hsorted hcov
    obtain ⟨hhead, htail⟩ := List.sorted_cons.mp hsorted
    have hk01 : k0 < k1 := hhead k1 (by simp)
    simp only [ecdfGo, List.map_cons]
    rw [div_add_div_same, ← Nat.cast_add, countP_lt_add_eq_le]
    have hcongr : rows.countP (fun r => decide (r ≤ k0))
        = rows.countP (fun r => decide (r < k1)) := by
      refine countP_congr_mem _ _ rows ?_
      intro r hr
      rcases hcov r hr with h | h
      · rw [decide_eq_true (le_of_lt h), decide_eq_true (lt_trans h hk01)]
      · rcases List.mem_cons.mp h with rfl | h2
        · rw [decide_eq_true (le_refl r), decide_eq_true hk01]
        · have hk1r : k1 ≤ r := by
            rcases List.mem_cons.mp h2 with rfl | h3
            · exact le_refl r
            · exact le_of_lt ((List.sorted_cons.mp htail).1 r h3)
          rw [decide_eq_false (not_le.mpr (lt_of_lt_of_le hk01 hk1r)),
            decide_eq_false (not_lt.mpr hk1r)]
    congr 1
    rw [hcongr]
    refine ih k1 htail ?_
    intro r hr
    rcases hcov r hr with h | h
    · exact Or.inl (lt_trans h hk01)
    · rcases List.mem_cons.mp h with rfl | h2
      · exact Or.inl hk01
      · exact Or.inr h2

/-- C7 amended: the empirical CDF of Test accumulates the per-key relative
frequencies 1 / nRowData and prefix-sums them in the ascending order of the
map KEYS, which are the ToString forms of the observations: the cumulative
value at each key equals the fraction of rows whose key is at most that key
in the KEY order, not in the numeric order of the underlying values. -/
theorem ecdf_prefix_sum_key_order {α : Type} [LinearOrder α] (rows : List α) :
    cdfEmpirical rows = (mapKeys rows).map
      (fun k => (k, (rows.countP (fun r => decide (r ≤ k)) : ℚ)
        / (rows.length : ℚ))) := by
  cases hmk : mapKeys rows with
  | nil => simp [cdfEmpirical, hmk, ecdfGo]
  | cons k0 ks =>
    have hsorted : (k0 :: ks).Sorted (· < ·) := by
      rw [← hmk]
      exact mapKeys_sorted rows
    have hcov : ∀ r ∈ rows, r < k0 ∨ r ∈ k0 :: ks := by
      intro r hr
      exact Or.inr (hmk ▸ (mem_mapKeys r rows).mpr hr)
    have h0 : rows.countP (fun r => decide (r < k0)) = 0 := by
      refine List.countP_eq_zero.mpr ?_
      intro r hr
      simp only [decide_eq_true_eq]
      intro hlt
      have hmem := hmk ▸ (mem_mapKeys r rows).mpr hr
      rcases List.mem_cons.mp hmem with rfl | h2
      · exact lt_irrefl r hlt
      · exact absurd (lt_trans hlt ((List.sorted_cons.mp hsorted).1 r h2)) (lt_irrefl r)
    rw [cdfEmpirical, hmk]
    have hspec := ecdfGo_spec rows ks k0 hsorted hcov
    rw [h0] at hspec
    simpa using hspec

/-- C7 counterexample. The numeric column [2, 10]: the ToString keys are
the byte strings 2 = [50] and 10 = [49, 48], and the byte string of 10
sorts BELOW that of 2, so the empirical CDF gives cumulative 1/2 to the
value 10 and 1 to the value 2. Prefix-summing in ascending numeric order,
as the claim states, would give the value 2 the cumulative 1/2. -/
theorem ecdf_string_order_cex :
    cdfEmpirical (([2, 10] : List ℕ).map natStr) = [([49, 48], 1/2), ([50], 1)]
    ∧ natStr 2 = [50] ∧ natStr 10 = [49, 48]
    ∧ ecdfNumericClaimed [2, 10] = [(2, 1/2), (10, 1)]
    ∧ ((1 : ℚ) ≠ 1/2) := by
  refine ⟨?_, by decide, by decide, ?_, by norm_num⟩
  · have hlt : ¬ ([50] : List ℕ) < [49, 48] := by decide
    norm_num [cdfEmpirical, mapKeys, insertKey, ecdfGo, natStr, natStrAux, hlt,
      List.countP_cons, List.countP_nil]
  · norm_num [ecdfNumericClaimed, mapKeys, insertKey, List.countP_cons, List.countP_nil]

/-! ### Claim C9: derived breakpoints are non-decreasing -/

/-- A nonempty list of integers each at least one has sum at least one. -/
theorem sum_pos_of_all_pos :
    ∀ counts : List ℤ, counts ≠ [] → (∀ c ∈ counts, 1 ≤ c) → 1 ≤ counts.sum := by
  intro counts
  induction counts with
  | nil =>
    intro h _
    exact absurd rfl h
  | cons c cs ih =>
    intro _ hpos
    rw [List.sum_cons]
    have hc := hpos c (by simp)
    rcases eq_or_ne cs [] with rfl | hcs
    · simpa using hc
    · have h2 := ih hcs (fun x hx => hpos x (by simp [hx]))
      omega

/-- The interior target np = k * (n / N) never exceeds n when k is at most
N. -/
theorem np_le_n (k N : ℕ) (n : ℤ) (hN : 1 ≤ N) (hk : k ≤ N) (hn : 0 ≤ n) :
    (k : ℚ) * ((n : ℚ) / (N : ℚ)) ≤ (n : ℚ) := by
  have hN0 : (0 : ℚ) < (N : ℚ) := by exact_mod_cast hN
  rw [← mul_div_assoc, div_le_iff₀ hN0]
  have hkN : (k : ℚ) ≤ (N : ℚ) := by exact_mod_cast hk
  have hn0 : (0 : ℚ) ≤ (n : ℚ) := by exact_mod_cast hn
  calc (k : ℚ) * (n : ℚ) ≤ (N : ℚ) * (n : ℚ) := mul_le_mul_of_nonneg_right hkN hn0
  _ = (n : ℚ) * (N : ℚ) := mul_comm _ _

/-- The interior target is strictly below n when k is below N and n is
positive. -/
theorem np_lt_n (k N : ℕ) (n : ℤ) (hN : 1 ≤ N) (hk : k < N) (hn : 1 ≤ n) :
    (k : ℚ) * ((n : ℚ) / (N : ℚ)) < (n : ℚ) := by
  have hN0 : (0 : ℚ) < (N : ℚ) := by exact_mod_cast hN
  rw [← mul_div_assoc, div_lt_iff₀ hN0]
  have hkN : (k : ℚ) < (N : ℚ) := by exact_mod_cast hk
  have hn0 : (0 : ℚ) < (n : ℚ) := by exact_mod_cast hn
  calc (k : ℚ) * (n : ℚ) < (N : ℚ) * (n : ℚ) := mul_lt_mul_of_pos_right hkN hn0
  _ = (n : ℚ) * (N : ℚ) := mul_comm _ _

/-- The interior target is nonnegative. -/
theorem np_nonneg (k N : ℕ) (n : ℤ) (hn : 0 ≤ n) :
    0 ≤ (k : ℚ) * ((n : ℚ) / (N : ℚ)) :=
  mul_nonneg (Nat.cast_nonneg k) (div_nonneg (by exact_mod_cast hn) (Nat.cast_nonneg N))

/-- Under either definition the first quantile index never exceeds n. -/
theorem qIdx1_le_n (qd : QuantileDefinitionType) (k N : ℕ) (n : ℤ)
    (hN : 1 ≤ N) (hk : k ≤ N) (hn : 1 ≤ n) :
    qIdx1Of qd ((k : ℚ) * ((n : ℚ) / (N : ℚ))) ≤ n := by
  have hnple := np_le_n k N n hN hk (by omega)
  cases qd with
  | inverseCDF =>
    simp only [qIdx1Of]
    exact Int.ceil_le.mpr hnple
  | inverseCDFAveragedSteps =>
    simp only [qIdx1Of, cRound]
    rw [if_neg (not_lt.mpr (np_nonneg k N n (by omega)))]
    have hfl : Int.floor ((n : ℚ) + 1/2) = n := floorEq _ _ (by linarith) (by linarith)
    calc Int.floor ((k : ℚ) * ((n : ℚ) / (N : ℚ)) + 1/2)
        ≤ Int.floor ((n : ℚ) + 1/2) := Int.floor_le_floor (by linarith)
    _ = n := hfl

/-- The second quantile index floor( np + 1 ) never exceeds n for an
interior k. -/
theorem qIdx2_le_n (k N : ℕ) (n : ℤ) (hN : 1 ≤ N) (hk : k < N) (hn : 1 ≤ n) :
    Int.floor ((k : ℚ) * ((n : ℚ) / (N : ℚ)) + 1) ≤ n := by
  have h := np_lt_n k N n hN hk hn
  have h2 : Int.floor ((k : ℚ) * ((n : ℚ) / (N : ℚ)) + 1) < n + 1 := by
    refine Int.floor_lt.mpr ?_
    push_cast
    linarith
  omega

/-- The rank-advance loop succeeds and lands between its start and the
last real histogram row L, provided the CDF at L already reaches the
target. -/
theorem advanceGo_ok (cdfR : ℕ → ℤ) (qIdx : ℤ) (L : ℕ) (hL : qIdx ≤ cdfR L) :
    ∀ (m rank : ℕ), rank ≤ L → L ≤ rank + m →
      ∃ r, advanceGo cdfR qIdx rank m = Except.ok r ∧ rank ≤ r ∧ r ≤ L := by
  intro m
  induction m with
  | zero =>
    intro rank h1 h2
    have heq : rank = L := by omega
    subst heq
    exact ⟨rank, by simp [advanceGo, hL], le_refl _, le_refl _⟩
  | succ m ih =>
    intro rank h1 h2
    by_cases hc : qIdx ≤ cdfR rank
    · exact ⟨rank, by simp [advanceGo, hc], le_refl _, h1⟩
    · have hne : rank ≠ L := fun he => hc (he ▸ hL)
      obtain ⟨r, hr, hr1, hr2⟩ := ih (rank + 1) (by omega) (by omega)
      exact ⟨r, by simp [advanceGo, hc, hr], by omega, hr2⟩

/-- The rank advance with the bound nRowHist = L + 1 succeeds under the
same conditions. -/
theorem advanceRank_ok (cdfR : ℕ → ℤ) (qIdx : ℤ) (L : ℕ) (rank : ℕ)
    (hL : qIdx ≤ cdfR L) (h1 : rank ≤ L) :
    ∃ r, advanceRank cdfR (L + 1) qIdx rank = Except.ok r ∧ rank ≤ r ∧ r ≤ L := by
  rw [advanceRank]
  exact advanceGo_ok cdfR qIdx L hL (L + 1 - rank) rank h1 (by omega)

/-- The interior loop succeeds and produces a monotone bounded pair list
whenever all interior targets are reachable (n at least 1, the CDF at the
last real row at least n, all k below N). -/
theorem interiorLoop_ok (cdfR : ℕ → ℤ) (L : ℕ) (n : ℤ) (N : ℕ)
    (qd : QuantileDefinitionType) (hN : 1 ≤ N) (hn : 1 ≤ n) (hLn : n ≤ cdfR L) :
    ∀ (ks : List ℕ) (rank : ℕ), (∀ k ∈ ks, k < N) → rank ≤ L →
      ∃ ps, interiorLoop cdfR (L + 1) n N qd ks rank = Except.ok ps
        ∧ pairsBetween rank L ps := by
  intro ks
  induction ks with
  | nil =>
    intro rank _ _
    exact ⟨[], rfl, trivial⟩
  | cons k ks ih =>
    intro rank hks hrank
    have hk : k < N := hks k (by simp)
    have hq1 : qIdx1Of qd ((k : ℚ) * ((n : ℚ) / (N : ℚ))) ≤ cdfR L :=
      le_trans (qIdx1_le_n qd k N n hN (by omega) hn) hLn
    obtain ⟨r1, he1, hr1a, hr1b⟩ := advanceRank_ok cdfR _ L rank hq1 hrank
    cases qd with
    | inverseCDF =>
      obtain ⟨ps, heps, hbps⟩ := ih r1 (fun x hx => hks x (by simp [hx])) hr1b
      refine ⟨(r1, r1) :: ps, ?_, hr1a, le_refl r1, hr1b, hbps⟩
      simp only [interiorLoop]
      rw [he1]
      simp [heps]
    | inverseCDFAveragedSteps =>
      by_cases hne : qIdx1Of QuantileDefinitionType.inverseCDFAveragedSteps
          ((k : ℚ) * ((n : ℚ) / (N : ℚ)))
          ≠ Int.floor ((k : ℚ) * ((n : ℚ) / (N : ℚ)) + 1)
      · have hq2 : Int.floor ((k : ℚ) * ((n : ℚ) / (N : ℚ)) + 1) ≤ cdfR L :=
          le_trans (qIdx2_le_n k N n hN hk hn) hLn
        obtain ⟨r2, he2, hr2a, hr2b⟩ := advanceRank_ok cdfR _ L r1 hq2 hr1b
        obtain ⟨ps, heps, hbps⟩ := ih r2 (fun x hx => hks x (by simp [hx])) hr2b
        refine ⟨(r1, r2) :: ps, ?_, hr1a, hr2a, hr2b, hbps⟩
        have hfl : Int.floor ((k : ℚ) * ((n : ℚ) / (N : ℚ)) + 1)
            = Int.floor ((k : ℚ) * ((n : ℚ) / (N : ℚ))) + 1 := Int.floor_add_one _
        rw [hfl] at hne he2
        simp only [interiorLoop]
        rw [he1]
        simp [hne, he2, heps]
      · obtain ⟨ps, heps, hbps⟩ := ih r1 (fun x hx => hks x (by simp [hx])) hr1b
        refine ⟨(r1, r1) :: ps, ?_, hr1a, le_refl r1, hr1b, hbps⟩
        have hfl : Int.floor ((k : ℚ) * ((n : ℚ) / (N : ℚ)) + 1)
            = Int.floor ((k : ℚ) * ((n : ℚ) / (N : ℚ))) + 1 := Int.floor_add_one _
        rw [hfl] at hne
        simp [interiorLoop, he1, hne, heps]

/-- Closing a monotone bounded pair list with the final (hi, hi) pair. -/
theorem pairsBetween_concat (hi : ℕ) :
    ∀ (ps : List (ℕ × ℕ)) (lo : ℕ), pairsBetween lo hi ps → lo ≤ hi →
      pairsBetween lo hi (ps ++ [(hi, hi)]) := by
  intro ps
  induction ps with
  | nil =>
    intro lo _ hlo
    exact ⟨hlo, le_refl hi, le_refl hi, trivial⟩
  | cons p ps ih =>
    intro lo hp hlo
    obtain ⟨h1, h2, h3, h4⟩ := hp
    exact ⟨h1, h2, h3, ih p.2 h4 h3⟩

/-- Mapping a pairwise-monotone function over a monotone bounded pair list
yields a non-decreasing value list. -/
theorem chain_map_of_pairsBetween (f : ℕ × ℕ → ℚ) (L : ℕ)
    (hf : ∀ a b c d : ℕ, 1 ≤ a → a ≤ b → b ≤ c → c ≤ d → d ≤ L →
      f (a, b) ≤ f (c, d)) :
    ∀ (ps : List (ℕ × ℕ)) (lo : ℕ), 1 ≤ lo → pairsBetween lo L ps →
      List.Chain' (· ≤ ·) (ps.map f) := by
  intro ps
  induction ps with
  | nil =>
    intro _ _ _
    simp
  | cons p ps ih =>
    intro lo hlo hp
    obtain ⟨h1, h2, h3, h4⟩ := hp
    have htail := ih p.2 (by omega) h4
    cases ps with
    | nil => simp
    | cons q ps2 =>
      obtain ⟨hq1, hq2, hq3, _⟩ := h4
      rw [List.map_cons, List.map_cons]
      refine List.chain'_cons.mpr ⟨?_, ?_⟩
      · exact hf p.1 p.2 q.1 q.2 (by omega) h2 hq1 hq2 hq3
      · simpa [List.map_cons] using htail

/-- Reading a real histogram row through histValue is reading the value
list shifted by the reserved row. -/
theorem histValue_succ (vals : List ℚ) (r : ℕ) :
    histValue vals (r + 1) = vals.getD r 0 := by
  rw [histValue, List.getD_cons_succ]

/-- histValue is monotone over the real rows of a sorted Value column. -/
theorem histValue_mono (vals : List ℚ) (hs : vals.Sorted (· ≤ ·)) (r s : ℕ)
    (h1 : 1 ≤ r) (hrs : r ≤ s) (hsL : s ≤ vals.length) :
    histValue vals r ≤ histValue vals s := by
  obtain ⟨r1, rfl⟩ : ∃ r1, r = r1 + 1 := ⟨r - 1, by omega⟩
  obtain ⟨s1, rfl⟩ : ∃ s1, s = s1 + 1 := ⟨s - 1, by omega⟩
  rw [histValue_succ, histValue_succ]
  exact sorted_getD_le 0 vals hs r1 s1 (by omega) (by omega)

/-- C9: for every numeric histogram block with at least one real entry,
positive counts and a non-decreasing Value column, Derive succeeds and the
N + 1 breakpoint values are non-decreasing in index order, under both
quantile definitions. -/
theorem derive_breakpoints_monotone (gamma : ℕ → ℤ) (qd : QuantileDefinitionType)
    (N : ℕ) (vals : List ℚ) (counts : List ℤ) (hN : 1 ≤ N) (hne : counts ≠ [])
    (hpos : ∀ c ∈ counts, 1 ≤ c) (hsort : vals.Sorted (· ≤ ·))
    (hlen : vals.length = counts.length) :
    ∃ bps, deriveColumn gamma qd N vals counts = Except.ok bps
      ∧ List.Chain' (· ≤ ·) bps := by
  have hL1 : 1 ≤ counts.length := List.length_pos.mpr hne
  have hn1 : 1 ≤ counts.sum := sum_pos_of_all_pos counts hne hpos
  have hcdfL : counts.sum ≤ cdfRead gamma counts counts.length := by
    rw [cdfRead, if_pos ⟨hL1, le_refl _⟩, List.take_length]
  obtain ⟨interior, hint, hbet⟩ := interiorLoop_ok (cdfRead gamma counts) counts.length
    counts.sum N qd hN hn1 hcdfL (List.range' 1 (N - 1)) 1
    (fun k hk => by
      have := List.mem_range'_1.mp hk
      omega) hL1
  have hQI : quantileIndices (cdfRead gamma counts) (counts.length + 1) counts.sum N qd
      = Except.ok ((1, 1) :: interior ++ [(counts.length, counts.length)]) := by
    rw [quantileIndices, hint]
    simp
  have hfull : pairsBetween 1 counts.length
      ((1, 1) :: interior ++ [(counts.length, counts.length)]) :=
    ⟨le_refl 1, le_refl 1, hL1, pairsBetween_concat counts.length interior 1 hbet hL1⟩
  refine ⟨breakpointsOf qd vals ((1, 1) :: interior ++ [(counts.length, counts.length)]),
    ?_, ?_⟩
  · simp [deriveColumn, hQI]
  · cases qd with
    | inverseCDF =>
      simp only [breakpointsOf]
      refine chain_map_of_pairsBetween (fun p => histValue vals p.1) counts.length
        ?_ _ 1 (le_refl 1) hfull
      intro a b c d ha hab hbc hcd hdL
      exact histValue_mono vals hsort a c ha (by omega) (by omega)
    | inverseCDFAveragedSteps =>
      simp only [breakpointsOf]
      refine chain_map_of_pairsBetween
        (fun p => (histValue vals p.1 + histValue vals p.2) / 2) counts.length
        ?_ _ 1 (le_refl 1) hfull
      intro a b c d ha hab hbc hcd hdL
      have hm1 := histValue_mono vals hsort a c ha (by omega) (by omega)
      have hm2 := histValue_mono vals hsort b d (by omega) (by omega) (by omega)
      simp only []
      linarith

/-- C9 witness: the two-entry histogram with values [1, 2], counts [1, 1],
N = 2, under InverseCDF. -/
theorem derive_breakpoints_monotone_wit :
    ∃ bps, deriveColumn (fun _ => 0) QuantileDefinitionType.inverseCDF 2 [1, 2] [1, 1]
      = Except.ok bps ∧ List.Chain' (· ≤ ·) bps :=
  derive_breakpoints_monotone (fun _ => 0) QuantileDefinitionType.inverseCDF 2 [1, 2]
    [1, 1] (by norm_num) (by simp) (by decide) (by norm_num [List.sorted_cons]) (by simp)
